import Mathlib

/-!
Verification of the grid-transfer operators and the CG-Ritz solver of
src/code/conjugate_gradient.py.

Numbers are modelled by the rationals; the numpy arrays by lists of
rationals (matrices as lists of rows).  Fallible operations return
Except: the ValueError raised on an odd grid size becomes
GridError.invalidGridSize, and a division whose denominator is zero
(which in 64-bit floats would propagate NaN or Inf) becomes
CGError.divisionByZero.
-/

/-- The error raised by create_coarsening_matrix when h is odd
(the spec calls it InvalidGridSizeError; the source raises ValueError). -/
inductive GridError where
  | invalidGridSize
deriving DecidableEq

/-- Numerical degeneracy signal: a denominator in the CG iteration is zero
(in the floating-point source this would propagate NaN or Inf). -/
inductive CGError where
  | divisionByZero
deriving DecidableEq

/-- np.arange(start, stop, step) over the naturals. -/
def arange (start stop step : ℕ) : List ℕ :=
  (List.range ((stop - start + (step - 1)) / step)).map (fun k => start + step * k)

/-- A single in-place element assignment m[i][j] = v (out-of-range indices
leave the matrix unchanged; the proofs show every index used is in range). -/
def setEntry (m : List (List ℚ)) (i j : ℕ) (v : ℚ) : List (List ℚ) :=
  m.set i ((m.getD i []).set j v)

/-- Sequential assignment of the value v at a list of (row, column) targets. -/
def applyPairs (v : ℚ) : List (ℕ × ℕ) → List (List ℚ) → List (List ℚ)
  | [], m => m
  | p :: ps, m => applyPairs v ps (setEntry m p.1 p.2 v)

/-- numpy fancy-index assignment m[rows, cols] = v. -/
def fancyAssign (m : List (List ℚ)) (rows cols : List ℕ) (v : ℚ) : List (List ℚ) :=
  applyPairs v (rows.zip cols) m

/-- Matrix entry accessor (0 outside the stored rectangle). -/
def entry (m : List (List ℚ)) (i j : ℕ) : ℚ :=
  (m.getD i []).getD j 0

/-- create_coarsening_matrix of src/code/conjugate_gradient.py, lines 21 to 50:
reject odd h, build the zero (size_coarse x size_fine) matrix, write the
three stencil diagonals with numpy fancy indexing, divide by 4. -/
def create_coarsening_matrix (h : ℕ) : Except GridError (List (List ℚ)) :=
  if h % 2 ≠ 0 then .error .invalidGridSize
  else
    let size_fine := h + 1
    let size_coarse := size_fine / 2
    let m0 := List.replicate size_coarse (List.replicate size_fine (0 : ℚ))
    let m1 := fancyAssign m0 (arange 0 size_coarse 1) (arange 0 (size_fine - 2) 2) 1
    let m2 := fancyAssign m1 (arange 0 size_coarse 1) (arange 1 (size_fine - 1) 2) 2
    let m3 := fancyAssign m2 (arange 0 size_coarse 1) (arange 2 size_fine 2) 1
    .ok (m3.map (fun row => row.map (fun q => q / 4)))

/-- np.transpose for a rectangular list-of-rows matrix. -/
def transpose (m : List (List ℚ)) : List (List ℚ) :=
  (List.range (m.getD 0 []).length).map (fun j => m.map (fun row => row.getD j 0))

/-- create_prolongation_matrix, lines 53 to 58:
2 * np.transpose(create_coarsening_matrix h), propagating the error. -/
def create_prolongation_matrix (h : ℕ) : Except GridError (List (List ℚ)) :=
  match create_coarsening_matrix h with
  | .error e => .error e
  | .ok m => .ok ((transpose m).map (fun row => row.map (fun q => 2 * q)))

/-- np.dot of two vectors. -/
def dot (u v : List ℚ) : ℚ := (List.zipWith (fun a b => a * b) u v).sum

/-- Elementwise product np.diag(A) * v of the diagonal vector with v. -/
def amul (a v : List ℚ) : List ℚ := List.zipWith (fun ai vi => ai * vi) a v

/-- Elementwise vector sum. -/
def vadd (u v : List ℚ) : List ℚ := List.zipWith (fun a b => a + b) u v

/-- Elementwise vector difference. -/
def vsub (u v : List ℚ) : List ℚ := List.zipWith (fun a b => a - b) u v

/-- Scalar times vector. -/
def smul (c : ℚ) (v : List ℚ) : List ℚ := v.map (fun x => c * x)

/-- The convergence test np.linalg.norm(r) < tol, expressed over the
rationals: for tol > 0 the Euclidean norm of r is below tol iff
dot r r < tol ^ 2, and for tol ≤ 0 the test is always false. -/
def normLt (r : List ℚ) (tol : ℚ) : Prop := 0 < tol ∧ dot r r < tol ^ 2

instance (r : List ℚ) (tol : ℚ) : Decidable (normLt r tol) := by
  unfold normLt; infer_instance

/-- The Ritz value of line 97: np.dot(r_new, r_new) / np.dot(r, r). -/
def ritz_of (r_new r : List ℚ) : ℚ := dot r_new r_new / dot r r

/-- The CG coefficient beta of line 103: np.dot(r_new, r_new) / np.dot(r, r). -/
def beta_of (r_new r : List ℚ) : ℚ := dot r_new r_new / dot r r

/-- The loop of conjugate_gradient_with_ritz, lines 90 to 106, with the
remaining iteration count as fuel.  A zero denominator aborts with
CGError.divisionByZero (the float source would propagate NaN/Inf there). -/
def cgLoop (a : List ℚ) (tol : ℚ) :
    ℕ → List ℚ → List ℚ → List ℚ → List ℚ → Except CGError (List ℚ × List ℚ)
  | 0, x, _r, _p, ritz_values => .ok (x, ritz_values)
  | fuel + 1, x, r, p, ritz_values =>
    let Ap := amul a p
    if dot p Ap = 0 then .error .divisionByZero
    else
      let alpha := dot r r / dot p Ap
      let x1 := vadd x (smul alpha p)
      let r_new := vsub r (smul alpha Ap)
      if dot r r = 0 then .error .divisionByZero
      else
        let ritz1 := ritz_values ++ [ritz_of r_new r]
        if normLt r_new tol then .ok (x1, ritz1)
        else cgLoop a tol fuel x1 r_new (vadd r_new (smul (beta_of r_new r) p)) ritz1

/-- conjugate_gradient_with_ritz, lines 67 to 107.  The matrix argument is
the vector a of diagonal entries (the source extracts it with np.diag). -/
def conjugate_gradient_with_ritz (a b : List ℚ) (max_iter : ℕ) (tol : ℚ) :
    Except CGError (List ℚ × List ℚ) :=
  let n := b.length
  let x := List.replicate n (0 : ℚ)
  let r := vsub b (amul a x)
  let p := r
  cgLoop a tol max_iter x r p []

/-- Modelled from the spec: the loop with the quotient
dot r_new r_new / dot r r computed once and reused as both the recorded
Ritz value and the CG beta coefficient (section 9 of the spec). -/
def cgLoopReuse (a : List ℚ) (tol : ℚ) :
    ℕ → List ℚ → List ℚ → List ℚ → List ℚ → Except CGError (List ℚ × List ℚ)
  | 0, x, _r, _p, ritz_values => .ok (x, ritz_values)
  | fuel + 1, x, r, p, ritz_values =>
    let Ap := amul a p
    if dot p Ap = 0 then .error .divisionByZero
    else
      let alpha := dot r r / dot p Ap
      let x1 := vadd x (smul alpha p)
      let r_new := vsub r (smul alpha Ap)
      if dot r r = 0 then .error .divisionByZero
      else
        let rv := ritz_of r_new r
        let ritz1 := ritz_values ++ [rv]
        if normLt r_new tol then .ok (x1, ritz1)
        else cgLoopReuse a tol fuel x1 r_new (vadd r_new (smul rv p)) ritz1

/-- Modelled from the spec: conjugate_gradient_with_ritz with the single
shared Ritz/beta computation of cgLoopReuse. -/
def conjugate_gradient_with_ritz_reuse (a b : List ℚ) (max_iter : ℕ) (tol : ℚ) :
    Except CGError (List ℚ × List ℚ) :=
  let n := b.length
  let x := List.replicate n (0 : ℚ)
  let r := vsub b (amul a x)
  let p := r
  cgLoopReuse a tol max_iter x r p []

/-! ## List helper lemmas -/

lemma zipWith_replicate_same (f : ℚ → ℚ → ℚ) (n : ℕ) (a b : ℚ) :
    List.zipWith f (List.replicate n a) (List.replicate n b) = List.replicate n (f a b) := by
  induction n with
  | zero => rfl
  | succ n ih => simp [List.replicate_succ, ih]

lemma dot_replicate (n : ℕ) (a b : ℚ) :
    dot (List.replicate n a) (List.replicate n b) = n * (a * b) := by
  unfold dot
  rw [zipWith_replicate_same, List.sum_replicate, nsmul_eq_mul]

/-! ## C6: odd grid sizes are rejected -/

/-- C6: for every odd h, create_coarsening_matrix fails with the
invalid-grid-size error, and create_prolongation_matrix fails with the same
error under the same condition. -/
theorem odd_h_invalid_grid (h : ℕ) (hodd : h % 2 = 1) :
    create_coarsening_matrix h = .error .invalidGridSize ∧
      create_prolongation_matrix h = .error .invalidGridSize := by
  have hne : h % 2 ≠ 0 := by omega
  constructor
  · unfold create_coarsening_matrix
    simp [hne]
  · unfold create_prolongation_matrix create_coarsening_matrix
    simp [hne]

theorem odd_h_invalid_grid_witness :
    (create_coarsening_matrix 1 = .error .invalidGridSize ∧
      create_prolongation_matrix 1 = .error .invalidGridSize) ∧
    (create_coarsening_matrix 3 = .error .invalidGridSize ∧
      create_prolongation_matrix 3 = .error .invalidGridSize) ∧
    (create_coarsening_matrix 7 = .error .invalidGridSize ∧
      create_prolongation_matrix 7 = .error .invalidGridSize) :=
  ⟨odd_h_invalid_grid 1 rfl, odd_h_invalid_grid 3 rfl, odd_h_invalid_grid 7 rfl⟩

/-! ## C8: the concrete matrix at h = 8 -/

/-- C8: create_coarsening_matrix 8 is exactly the 4 x 9 matrix
[[1,2,1,0,...],[0,0,1,2,1,0,...],[...],[...]] divided by 4. -/
theorem coarsening_eight_concrete :
    create_coarsening_matrix 8 =
      .ok (([[1, 2, 1, 0, 0, 0, 0, 0, 0],
             [0, 0, 1, 2, 1, 0, 0, 0, 0],
             [0, 0, 0, 0, 1, 2, 1, 0, 0],
             [0, 0, 0, 0, 0, 0, 1, 2, 1]] : List (List ℚ)).map
               (fun row => row.map (fun q => q / 4))) := by
  rfl

/-! ## C4: beta coincides with the recorded Ritz value -/

lemma cgLoopReuse_eq_cgLoop (a : List ℚ) (tol : ℚ) :
    ∀ (fuel : ℕ) (x r p ritz : List ℚ),
      cgLoopReuse a tol fuel x r p ritz = cgLoop a tol fuel x r p ritz := by
  intro fuel
  induction fuel with
  | zero => intro x r p ritz; rfl
  | succ f ih =>
    intro x r p ritz
    by_cases h1 : dot p (amul a p) = 0
    · simp [cgLoop, cgLoopReuse, h1]
    · by_cases h2 : dot r r = 0
      · simp [cgLoop, cgLoopReuse, h1, h2]
      · by_cases h3 :
          normLt (vsub r (smul (dot r r / dot p (amul a p)) (amul a p))) tol
        · simp [cgLoop, cgLoopReuse, h1, h2, h3]
        · simp [cgLoop, cgLoopReuse, h1, h2, h3, ih, beta_of, ritz_of]

/-- C4: in every iteration that passes the convergence check, the beta of
step 7 equals the Ritz value recorded in step 5 (both are
dot r_new r_new / dot r r on the same vectors), and consequently the
compute-once-and-reuse variant of the solver returns exactly the same
result as the reference solver on every input. -/
theorem beta_is_ritz_and_reuse_equiv (a b rn r : List ℚ) (mi : ℕ) (tol : ℚ) :
    beta_of rn r = ritz_of rn r ∧
      conjugate_gradient_with_ritz_reuse a b mi tol =
        conjugate_gradient_with_ritz a b mi tol := by
  refine ⟨rfl, ?_⟩
  unfold conjugate_gradient_with_ritz_reuse conjugate_gradient_with_ritz
  exact cgLoopReuse_eq_cgLoop a tol mi _ _ _ []

/-! ## C1: identity system with all-ones right-hand side -/

/-- C1: with diagonal_entries and rhs both the all-ones vector of length n,
the solver converges in exactly one iteration: it returns x = ones(n) and
the single-element Ritz sequence [0], for every n >= 1, every positive
tolerance and every max_iterations >= 1. -/
theorem cg_identity_one_iteration (n mi : ℕ) (tol : ℚ)
    (hn : 1 ≤ n) (ht : 0 < tol) (hmi : 1 ≤ mi) :
    conjugate_gradient_with_ritz (List.replicate n 1) (List.replicate n 1) mi tol =
      .ok (List.replicate n 1, [0]) := by
  obtain ⟨f, rfl⟩ : ∃ f, mi = f + 1 := ⟨mi - 1, by omega⟩
  have hne : (n : ℚ) ≠ 0 := Nat.cast_ne_zero.mpr (by omega)
  have hx0 : amul (List.replicate n (1 : ℚ)) (List.replicate n (0 : ℚ)) =
      List.replicate n 0 := by
    unfold amul; rw [zipWith_replicate_same]; norm_num
  have hr0 : vsub (List.replicate n (1 : ℚ)) (List.replicate n (0 : ℚ)) =
      List.replicate n 1 := by
    unfold vsub; rw [zipWith_replicate_same]; norm_num
  have hAp : amul (List.replicate n (1 : ℚ)) (List.replicate n (1 : ℚ)) =
      List.replicate n 1 := by
    unfold amul; rw [zipWith_replicate_same]; norm_num
  have hdot1 : dot (List.replicate n (1 : ℚ)) (List.replicate n (1 : ℚ)) = n := by
    rw [dot_replicate]; ring
  have hsm : smul ((n : ℚ) / (n : ℚ)) (List.replicate n (1 : ℚ)) =
      List.replicate n 1 := by
    unfold smul; rw [List.map_replicate, div_self hne]; norm_num
  have hx1 : vadd (List.replicate n (0 : ℚ)) (List.replicate n (1 : ℚ)) =
      List.replicate n 1 := by
    unfold vadd; rw [zipWith_replicate_same]; norm_num
  have hrn : vsub (List.replicate n (1 : ℚ)) (List.replicate n (1 : ℚ)) =
      List.replicate n 0 := by
    unfold vsub; rw [zipWith_replicate_same]; norm_num
  have hdot0 : dot (List.replicate n (0 : ℚ)) (List.replicate n (0 : ℚ)) = 0 := by
    rw [dot_replicate]; ring
  have hritz : ritz_of (List.replicate n (0 : ℚ)) (List.replicate n (1 : ℚ)) = 0 := by
    unfold ritz_of; rw [hdot0, zero_div]
  have hconv : normLt (List.replicate n (0 : ℚ)) tol := by
    refine ⟨ht, ?_⟩
    rw [hdot0]
    positivity
  simp only [conjugate_gradient_with_ritz, List.length_replicate, hx0, hr0]
  simp only [cgLoop, hAp, hdot1, hne, if_false, hsm, hx1, hrn, hritz, hconv, if_true,
    List.nil_append]

theorem cg_identity_one_iteration_witness :
    conjugate_gradient_with_ritz (List.replicate 3 1) (List.replicate 3 1) 2 (1 / 2) =
      .ok (List.replicate 3 1, [0]) :=
  cg_identity_one_iteration 3 2 (1 / 2) (by norm_num) (by norm_num) (by norm_num)

/-! ## C5: non-convergence is not an error -/

lemma residual_step (a b x p : List ℚ) (al : ℚ) :
    vsub (vsub b (amul a x)) (smul al (amul a p)) =
      vsub b (amul a (vadd x (smul al p))) := by
  apply List.ext_getElem?
  intro i
  simp only [vsub, amul, vadd, smul, List.getElem?_zipWith', List.getElem?_map]
  cases hb : b[i]? <;> cases ha : a[i]? <;> cases hx : x[i]? <;> cases hp : p[i]? <;>
    (simp; try ring)

lemma cgLoop_spec (a b : List ℚ) (tol : ℚ) :
    ∀ (fuel : ℕ) (x p ritz : List ℚ) (x' ritz' : List ℚ),
      cgLoop a tol fuel x (vsub b (amul a x)) p ritz = .ok (x', ritz') →
      ritz.length + min fuel 1 ≤ ritz'.length ∧
      ritz'.length ≤ ritz.length + fuel ∧
      (ritz'.length = ritz.length + fuel ∨ normLt (vsub b (amul a x')) tol) := by
  intro fuel
  induction fuel with
  | zero =>
    intro x p ritz x' ritz' hrun
    simp only [cgLoop] at hrun
    obtain ⟨rfl, rfl⟩ : x = x' ∧ ritz = ritz' := by simpa using hrun
    simp
  | succ f ih =>
    intro x p ritz x' ritz' hrun
    simp only [cgLoop] at hrun
    by_cases h1 : dot p (amul a p) = 0
    · rw [if_pos h1] at hrun
      exact absurd hrun (by simp)
    rw [if_neg h1] at hrun
    by_cases h2 : dot (vsub b (amul a x)) (vsub b (amul a x)) = 0
    · rw [if_pos h2] at hrun
      exact absurd hrun (by simp)
    rw [if_neg h2] at hrun
    rw [residual_step] at hrun
    by_cases h3 :
        normLt (vsub b (amul a (vadd x
          (smul (dot (vsub b (amul a x)) (vsub b (amul a x)) / dot p (amul a p)) p)))) tol
    · rw [if_pos h3] at hrun
      obtain ⟨rfl, rfl⟩ :
          vadd x (smul (dot (vsub b (amul a x)) (vsub b (amul a x)) / dot p (amul a p)) p)
              = x' ∧ _ = ritz' := by
        simpa using hrun
      refine ⟨?_, ?_, Or.inr h3⟩ <;> simp
    · rw [if_neg h3] at hrun
      have hih := ih _ _ _ _ _ hrun
      rcases hih with ⟨hl, hu, hd⟩
      simp only [List.length_append, List.length_cons, List.length_nil] at hl hu hd
      refine ⟨by omega, by omega, ?_⟩
      rcases hd with hd | hd
      · left; omega
      · right; exact hd

/-- C5: if the solver completes its iterations and returns, non-convergence is
not an error: the Ritz sequence has length between 1 and max_iterations, and
it is shorter than max_iterations only when the run stopped at the
convergence check, in which case the residual of the returned x is below
tolerance; in particular max_iterations = 1 yields exactly one Ritz value. -/
theorem cg_nonconvergence_returns (a b x ritz : List ℚ) (mi : ℕ) (tol : ℚ)
    (hmi : 1 ≤ mi)
    (hrun : conjugate_gradient_with_ritz a b mi tol = .ok (x, ritz)) :
    1 ≤ ritz.length ∧ ritz.length ≤ mi ∧
      (ritz.length = mi ∨ normLt (vsub b (amul a x)) tol) := by
  simp only [conjugate_gradient_with_ritz] at hrun
  have h := cgLoop_spec a b tol mi (List.replicate b.length 0) _ [] x ritz hrun
  rcases h with ⟨hl, hu, hd⟩
  simp only [List.length_nil] at hl hu hd
  refine ⟨by omega, by omega, ?_⟩
  rcases hd with hd | hd
  · left; omega
  · right; exact hd

theorem cg_nonconvergence_returns_witness :
    1 ≤ [(1 : ℚ) / 9].length ∧ [(1 : ℚ) / 9].length ≤ 1 ∧
      ([(1 : ℚ) / 9].length = 1 ∨
        normLt (vsub [1, 1] (amul [1, 2] [2 / 3, 2 / 3])) (1 / 1000)) :=
  cg_nonconvergence_returns [1, 2] [1, 1] [2 / 3, 2 / 3] [(1 : ℚ) / 9] 1 (1 / 1000)
    (by norm_num)
    (by norm_num [conjugate_gradient_with_ritz, cgLoop, dot, amul, vadd, vsub, smul,
      ritz_of, normLt, List.replicate_succ])

/-! ## C7: the alpha denominator -/

/-- C7 counterexample: with diagonal entries [1, -1] (all nonzero) and
rhs [1, 1], the first search direction is p = [1, 1] (not the zero vector),
yet dot p (A p) = 0, so the division-by-zero branch of the alpha computation
is reached: nonzero diagonal entries do not make it unreachable. -/
theorem pAp_zero_reachable_cex :
    ((1 : ℚ) ≠ 0 ∧ (-1 : ℚ) ≠ 0) ∧
    [(1 : ℚ), 1] ≠ [0, 0] ∧
    dot [(1 : ℚ), 1] (amul [1, -1] [1, 1]) = 0 ∧
    conjugate_gradient_with_ritz [1, -1] [1, 1] 1 1 = .error .divisionByZero := by
  refine ⟨⟨by norm_num, by norm_num⟩, by simp, by norm_num [dot, amul], ?_⟩
  norm_num [conjugate_gradient_with_ritz, cgLoop, dot, amul, vsub, smul,
    List.replicate_succ]

lemma dot_amul_nonneg (a : List ℚ) :
    ∀ p : List ℚ, (∀ q ∈ a, 0 ≤ q) → 0 ≤ dot p (amul a p) := by
  induction a with
  | nil => intro p _; cases p <;> simp [dot, amul]
  | cons a0 ta ih =>
    intro p hpos
    cases p with
    | nil => simp [dot, amul]
    | cons p0 tp =>
      have h0 : (0 : ℚ) ≤ a0 := hpos a0 (by simp)
      have ht : ∀ q ∈ ta, (0 : ℚ) ≤ q := fun q hq => hpos q (by simp [hq])
      have hrw : dot (p0 :: tp) (amul (a0 :: ta) (p0 :: tp)) =
          a0 * p0 ^ 2 + dot tp (amul ta tp) := by
        simp [dot, amul]; ring
      rw [hrw]
      exact add_nonneg (mul_nonneg h0 (sq_nonneg p0)) (ih tp ht)

/-- C7 amended: the precondition must require strictly positive (not merely
nonzero) diagonal entries: if every diagonal entry is positive and p (of
matching length) is not the zero vector, then dot p (A p) is strictly
positive, hence nonzero, and the division-by-zero branch of the alpha
computation cannot be taken at such an iteration. -/
theorem pAp_pos_of_pos_entries :
    ∀ (a p : List ℚ), a.length = p.length →
      (∀ q ∈ a, 0 < q) → (∃ q ∈ p, q ≠ 0) → 0 < dot p (amul a p) := by
  intro a
  induction a with
  | nil =>
    intro p hl _ hnz
    cases p with
    | nil => simp at hnz
    | cons _ _ => simp at hl
  | cons a0 ta ih =>
    intro p hl hpos hnz
    cases p with
    | nil => simp at hl
    | cons p0 tp =>
      have h0 : (0 : ℚ) < a0 := hpos a0 (by simp)
      have htpos : ∀ q ∈ ta, (0 : ℚ) < q := fun q hq => hpos q (by simp [hq])
      have hrw : dot (p0 :: tp) (amul (a0 :: ta) (p0 :: tp)) =
          a0 * p0 ^ 2 + dot tp (amul ta tp) := by
        simp [dot, amul]; ring
      rw [hrw]
      have hlen : ta.length = tp.length := by simpa using hl
      rcases hnz with ⟨q, hq, hqne⟩
      rcases List.mem_cons.mp hq with h | h
      · subst h
        have hsq : 0 < a0 * q ^ 2 := by positivity
        have hnn : 0 ≤ dot tp (amul ta tp) :=
          dot_amul_nonneg ta tp (fun q hq => (htpos q hq).le)
        linarith
      · have hpos' : 0 < dot tp (amul ta tp) := ih tp hlen htpos ⟨q, h, hqne⟩
        have hnn : 0 ≤ a0 * p0 ^ 2 := by positivity
        linarith

theorem pAp_pos_of_pos_entries_witness : 0 < dot [(1 : ℚ), 0] (amul [2, 3] [1, 0]) :=
  pAp_pos_of_pos_entries [2, 3] [1, 0] rfl
    (by intro q hq; rcases List.mem_cons.mp hq with rfl | hq
        · norm_num
        · rcases List.mem_cons.mp hq with rfl | hq
          · norm_num
          · simp at hq)
    ⟨1, by simp, by norm_num⟩

/-! ## Entry-level characterization of the coarsening matrix -/

lemma entry_eq_getElem? (m : List (List ℚ)) (i j : ℕ) :
    entry m i j = (m[i]?.getD [])[j]?.getD 0 := by
  unfold entry
  rw [List.getD_eq_getElem?_getD, List.getD_eq_getElem?_getD]

lemma setEntry_length (m : List (List ℚ)) (i j : ℕ) (v : ℚ) :
    (setEntry m i j v).length = m.length := by
  unfold setEntry
  exact List.length_set m i _

lemma getElem?_setEntry (m : List (List ℚ)) (i j : ℕ) (v : ℚ) (i' : ℕ) :
    (setEntry m i j v)[i']? =
      if i = i' ∧ i < m.length then some ((m.getD i []).set j v) else m[i']? := by
  unfold setEntry
  rw [List.getElem?_set]
  by_cases h : i = i'
  · subst h
    by_cases hl : i < m.length
    · simp [hl]
    · simp [hl]
      omega
  · simp [h]

lemma setEntry_row_length (m : List (List ℚ)) (i j : ℕ) (v : ℚ) (i' : ℕ) :
    ((setEntry m i j v)[i']?.getD []).length = (m[i']?.getD []).length := by
  rw [getElem?_setEntry]
  by_cases h : i = i' ∧ i < m.length
  · obtain ⟨rfl, hl⟩ := h
    rw [if_pos ⟨rfl, hl⟩, Option.getD_some, List.length_set,
      List.getD_eq_getElem?_getD]
  · rw [if_neg h]

lemma entry_setEntry (m : List (List ℚ)) (i j : ℕ) (v : ℚ) (i' j' : ℕ) :
    entry (setEntry m i j v) i' j' =
      if i = i' ∧ j = j' ∧ i < m.length ∧ j < (m.getD i []).length then v
      else entry m i' j' := by
  rw [entry_eq_getElem?, entry_eq_getElem?, getElem?_setEntry]
  by_cases h : i = i' ∧ i < m.length
  · obtain ⟨rfl, hl⟩ := h
    rw [if_pos ⟨rfl, hl⟩, Option.getD_some, List.getElem?_set]
    by_cases hj : j = j'
    · subst hj
      by_cases hjl : j < (m.getD i []).length
      · rw [if_pos rfl, if_pos hjl, Option.getD_some, if_pos ⟨rfl, rfl, hl, hjl⟩]
      · rw [if_pos rfl, if_neg hjl, if_neg (fun hc => hjl hc.2.2.2), Option.getD_none,
          show m[i]?.getD [] = m.getD i [] from (List.getD_eq_getElem?_getD m i []).symm,
          List.getElem?_eq_none (by omega), Option.getD_none]
    · rw [if_neg hj, if_neg (fun hc => hj hc.2.1), List.getD_eq_getElem?_getD]
  · rw [if_neg h, if_neg (fun hc => h ⟨hc.1, hc.2.2.1⟩)]

lemma applyPairs_length (v : ℚ) (ps : List (ℕ × ℕ)) (m : List (List ℚ)) :
    (applyPairs v ps m).length = m.length := by
  induction ps generalizing m with
  | nil => rfl
  | cons p ps ih => rw [applyPairs, ih, setEntry_length]

lemma applyPairs_row_length (v : ℚ) (ps : List (ℕ × ℕ)) (m : List (List ℚ)) (i' : ℕ) :
    ((applyPairs v ps m)[i']?.getD []).length = (m[i']?.getD []).length := by
  induction ps generalizing m with
  | nil => rfl
  | cons p ps ih => rw [applyPairs, ih, setEntry_row_length]

lemma entry_applyPairs (v : ℚ) (ps : List (ℕ × ℕ)) (m : List (List ℚ)) (i j : ℕ) :
    entry (applyPairs v ps m) i j =
      if (i, j) ∈ ps ∧ i < m.length ∧ j < (m.getD i []).length then v
      else entry m i j := by
  induction ps generalizing m with
  | nil => simp [applyPairs]
  | cons p ps ih =>
    rcases p with ⟨pi, pj⟩
    rw [applyPairs, ih, setEntry_length]
    dsimp only
    have hrl : ((setEntry m pi pj v).getD i []).length = (m.getD i []).length := by
      rw [List.getD_eq_getElem?_getD, List.getD_eq_getElem?_getD, setEntry_row_length]
    rw [hrl, entry_setEntry]
    by_cases hp : pi = i ∧ pj = j
    · obtain ⟨rfl, rfl⟩ := hp
      by_cases hin : pi < m.length ∧ pj < (m.getD pi []).length
      · by_cases hm : (pi, pj) ∈ ps
        · rw [if_pos ⟨hm, hin.1, hin.2⟩, if_pos ⟨List.mem_cons_self _ _, hin.1, hin.2⟩]
        · rw [if_neg (fun hc => hm hc.1), if_pos ⟨rfl, rfl, hin.1, hin.2⟩,
            if_pos ⟨List.mem_cons_self _ _, hin.1, hin.2⟩]
      · rw [if_neg (fun hc => hin ⟨hc.2.1, hc.2.2⟩),
          if_neg (fun hc => hin ⟨hc.2.2.1, hc.2.2.2⟩),
          if_neg (fun hc => hin ⟨hc.2.1, hc.2.2⟩)]
    · have hinner :
          (if pi = i ∧ pj = j ∧ pi < m.length ∧ pj < (m.getD pi []).length then v
            else entry m i j) = entry m i j := if_neg (fun hc => hp ⟨hc.1, hc.2.1⟩)
      rw [hinner]
      by_cases hm : (i, j) ∈ ps ∧ i < m.length ∧ j < (m.getD i []).length
      · rw [if_pos hm, if_pos ⟨List.mem_cons_of_mem _ hm.1, hm.2.1, hm.2.2⟩]
      · rw [if_neg hm, if_neg ?_]
        intro hc
        rcases List.mem_cons.mp hc.1 with he | hin2
        · injection he with h1 h2
          exact hp ⟨h1.symm, h2.symm⟩
        · exact hm ⟨hin2, hc.2.1, hc.2.2⟩

lemma entry_replicate_zero (sc sf i j : ℕ) :
    entry (List.replicate sc (List.replicate sf (0 : ℚ))) i j = 0 := by
  rw [entry_eq_getElem?, List.getElem?_replicate]
  by_cases hi : i < sc
  · rw [if_pos hi, Option.getD_some, List.getElem?_replicate]
    by_cases hj : j < sf
    · rw [if_pos hj, Option.getD_some]
    · rw [if_neg hj, Option.getD_none]
  · rw [if_neg hi, Option.getD_none]
    simp

lemma zip_self_map (g : ℕ → ℕ) : ∀ l : List ℕ, l.zip (l.map g) = l.map (fun k => (k, g k))
  | [] => rfl
  | k :: l => by rw [List.map_cons, List.zip_cons_cons, zip_self_map g l, List.map_cons]

lemma mem_map_pair (g : ℕ → ℕ) (n i j : ℕ) :
    ((i, j) ∈ (List.range n).map (fun k => (k, g k))) ↔ (i < n ∧ j = g i) := by
  simp only [List.mem_map, List.mem_range, Prod.mk.injEq]
  constructor
  · rintro ⟨k, hk, rfl, rfl⟩
    exact ⟨hk, rfl⟩
  · rintro ⟨hi, rfl⟩
    exact ⟨i, hi, rfl, rfl⟩

lemma arange_zero_one (n : ℕ) : arange 0 n 1 = List.range n := by
  unfold arange
  simp

lemma arange_step_two (start stop : ℕ) :
    arange start stop 2 =
      (List.range ((stop - start + 1) / 2)).map (fun k => start + 2 * k) := rfl

lemma length_getD_map_map (f : ℚ → ℚ) (m : List (List ℚ)) (i : ℕ) :
    (((m.map (fun row => row.map f))[i]?).getD []).length = ((m[i]?).getD []).length := by
  rw [List.getElem?_map]
  cases m[i]? <;> simp

lemma entry_map_map (f : ℚ → ℚ) (m : List (List ℚ)) (i j : ℕ)
    (hi : i < m.length) (hj : j < (m.getD i []).length) :
    entry (m.map (fun row => row.map f)) i j = f (entry m i j) := by
  rw [entry_eq_getElem?, entry_eq_getElem?, List.getElem?_map]
  have hsome : m[i]? = some m[i] := List.getElem?_eq_getElem hi
  rw [hsome, Option.map_some', Option.getD_some, Option.getD_some, List.getElem?_map]
  have hj' : j < m[i].length := by
    rwa [List.getD_eq_getElem?_getD, hsome, Option.getD_some] at hj
  have hsome' : m[i][j]? = some m[i][j] := List.getElem?_eq_getElem hj'
  rw [hsome', Option.map_some', Option.getD_some, Option.getD_some]

lemma coarsening_entry (h : ℕ) (he : h % 2 = 0) (m : List (List ℚ))
    (hm : create_coarsening_matrix h = .ok m) :
    m.length = (h + 1) / 2 ∧
    (∀ i, i < (h + 1) / 2 → (m.getD i []).length = h + 1) ∧
    (∀ i j, i < (h + 1) / 2 → j < h + 1 →
      entry m i j =
        if j = 2 * i ∨ j = 2 * i + 2 then (1 : ℚ) / 4
        else if j = 2 * i + 1 then 2 / 4 else 0) := by
  simp only [create_coarsening_matrix, fancyAssign] at hm
  rw [if_neg (by omega : ¬ h % 2 ≠ 0)] at hm
  injection hm with hm
  subst hm
  rw [arange_zero_one, arange_step_two, arange_step_two, arange_step_two,
    show h + 1 - 2 - 0 + 1 = h + 1 - 1 - 1 + 1 from by omega,
    show h + 1 - 2 + 1 = h + 1 - 1 - 1 + 1 from by omega,
    show (h + 1 - 1 - 1 + 1) / 2 = (h + 1) / 2 from by omega,
    zip_self_map, zip_self_map, zip_self_map]
  set m0 := List.replicate ((h + 1) / 2) (List.replicate (h + 1) (0 : ℚ)) with hm0def
  set ps1 := (List.range ((h + 1) / 2)).map (fun k => (k, 0 + 2 * k)) with hps1
  set ps2 := (List.range ((h + 1) / 2)).map (fun k => (k, 1 + 2 * k)) with hps2
  set ps3 := (List.range ((h + 1) / 2)).map (fun k => (k, 2 + 2 * k)) with hps3
  set m1 := applyPairs (1 : ℚ) ps1 m0 with hm1
  set m2 := applyPairs (2 : ℚ) ps2 m1 with hm2
  set m3 := applyPairs (1 : ℚ) ps3 m2 with hm3
  have hl0 : m0.length = (h + 1) / 2 := by rw [hm0def, List.length_replicate]
  have hl1 : m1.length = (h + 1) / 2 := by rw [hm1, applyPairs_length, hl0]
  have hl2 : m2.length = (h + 1) / 2 := by rw [hm2, applyPairs_length, hl1]
  have hl3 : m3.length = (h + 1) / 2 := by rw [hm3, applyPairs_length, hl2]
  have hr0 : ∀ i, i < (h + 1) / 2 → (m0.getD i []).length = h + 1 := by
    intro i hi
    rw [hm0def, List.getD_eq_getElem?_getD, List.getElem?_replicate, if_pos hi,
      Option.getD_some, List.length_replicate]
  have hr1 : ∀ i, i < (h + 1) / 2 → (m1.getD i []).length = h + 1 := by
    intro i hi
    rw [hm1, List.getD_eq_getElem?_getD, applyPairs_row_length,
      ← List.getD_eq_getElem?_getD, hr0 i hi]
  have hr2 : ∀ i, i < (h + 1) / 2 → (m2.getD i []).length = h + 1 := by
    intro i hi
    rw [hm2, List.getD_eq_getElem?_getD, applyPairs_row_length,
      ← List.getD_eq_getElem?_getD, hr1 i hi]
  have hr3 : ∀ i, i < (h + 1) / 2 → (m3.getD i []).length = h + 1 := by
    intro i hi
    rw [hm3, List.getD_eq_getElem?_getD, applyPairs_row_length,
      ← List.getD_eq_getElem?_getD, hr2 i hi]
  refine ⟨?_, ?_, ?_⟩
  · rw [List.length_map, hl3]
  · intro i hi
    rw [List.getD_eq_getElem?_getD, length_getD_map_map,
      ← List.getD_eq_getElem?_getD, hr3 i hi]
  · intro i j hi hj
    rw [entry_map_map _ _ _ _ (by rw [hl3]; exact hi) (by rw [hr3 i hi]; exact hj)]
    rw [hm3, entry_applyPairs, hl2, hr2 i hi, hps3]
    simp only [mem_map_pair]
    rw [hm2, entry_applyPairs, hl1, hr1 i hi, hps2]
    simp only [mem_map_pair]
    rw [hm1, entry_applyPairs, hl0, hr0 i hi, hps1]
    simp only [mem_map_pair]
    rw [hm0def, entry_replicate_zero]
    split_ifs <;> (try norm_num) <;> omega

/-! ## C2: shape and row sums of the coarsening matrix -/

lemma sum_eq_sum_getD (l : List ℚ) :
    l.sum = ∑ j ∈ Finset.range l.length, l.getD j 0 := by
  induction l with
  | nil => simp
  | cons a l ih =>
    rw [List.sum_cons, List.length_cons, Finset.sum_range_succ']
    simp only [List.getD_cons_succ, List.getD_cons_zero]
    rw [← ih]
    ring

lemma stencil_row_sum (h i : ℕ) (he : h % 2 = 0) (hi : i < (h + 1) / 2) :
    (∑ j ∈ Finset.range (h + 1),
      if j = 2 * i ∨ j = 2 * i + 2 then (1 : ℚ) / 4
      else if j = 2 * i + 1 then 2 / 4 else 0) = 1 := by
  have hsplit : ∀ j, (if j = 2 * i ∨ j = 2 * i + 2 then (1 : ℚ) / 4
      else if j = 2 * i + 1 then 2 / 4 else 0) =
      (if j = 2 * i then (1 : ℚ) / 4 else 0) + (if j = 2 * i + 1 then 2 / 4 else 0) +
        (if j = 2 * i + 2 then 1 / 4 else 0) := by
    intro j
    split_ifs <;> (try norm_num) <;> omega
  rw [Finset.sum_congr rfl (fun j _ => hsplit j), Finset.sum_add_distrib,
    Finset.sum_add_distrib, Finset.sum_ite_eq', Finset.sum_ite_eq', Finset.sum_ite_eq',
    if_pos (Finset.mem_range.mpr (by omega : 2 * i < h + 1)),
    if_pos (Finset.mem_range.mpr (by omega : 2 * i + 1 < h + 1)),
    if_pos (Finset.mem_range.mpr (by omega : 2 * i + 2 < h + 1))]
  norm_num

/-- C2: for every even h ≥ 2, create_coarsening_matrix h returns a matrix of
shape ((h+1)/2) x (h+1) in which every row sums to exactly 1. -/
theorem coarsening_shape_row_sum (h : ℕ) (m : List (List ℚ)) (row : List ℚ)
    (he : h % 2 = 0) (_h2 : 2 ≤ h) (hm : create_coarsening_matrix h = .ok m)
    (hrow : row ∈ m) :
    m.length = (h + 1) / 2 ∧ row.length = h + 1 ∧ row.sum = 1 := by
  obtain ⟨hlen, hrows, hent⟩ := coarsening_entry h he m hm
  obtain ⟨i, hilen, hrowi⟩ := List.mem_iff_getElem.mp hrow
  have hi : i < (h + 1) / 2 := by omega
  have hrow_eq : row = m.getD i [] := by
    rw [List.getD_eq_getElem?_getD, List.getElem?_eq_getElem hilen, Option.getD_some,
      hrowi]
  have hrlen : row.length = h + 1 := by rw [hrow_eq]; exact hrows i hi
  refine ⟨hlen, hrlen, ?_⟩
  rw [sum_eq_sum_getD, hrlen]
  rw [Finset.sum_congr rfl (fun j hj => by
    rw [hrow_eq, show (m.getD i []).getD j 0 = entry m i j from rfl,
      hent i j hi (Finset.mem_range.mp hj)])]
  exact stencil_row_sum h i he hi

theorem coarsening_shape_row_sum_witness :
    ([[(1 : ℚ) / 4, 2 / 4, 1 / 4]] : List (List ℚ)).length = (2 + 1) / 2 ∧
      [(1 : ℚ) / 4, 2 / 4, 1 / 4].length = 2 + 1 ∧
      [(1 : ℚ) / 4, 2 / 4, 1 / 4].sum = 1 :=
  coarsening_shape_row_sum 2 [[(1 : ℚ) / 4, 2 / 4, 1 / 4]] [(1 : ℚ) / 4, 2 / 4, 1 / 4]
    rfl (by norm_num) rfl (List.mem_cons_self _ _)

/-! ## C10: the full 1-2-1 stencil in every row, last row included -/

/-- C10: for every even h ≥ 2, every row i of the coarsening matrix — the
last row included — has exactly the three nonzero entries 1/4 at column 2i,
1/2 at column 2i+1 and 1/4 at column 2i+2 (every other column j holds 0),
and the last row's third column lands exactly on the final fine column
h = size_fine - 1, so the boundary truncation never occurs. -/
theorem coarsening_full_stencil (h : ℕ) (m : List (List ℚ)) (i j : ℕ)
    (he : h % 2 = 0) (h2 : 2 ≤ h) (hm : create_coarsening_matrix h = .ok m)
    (hi : i < (h + 1) / 2) (hj : j < h + 1)
    (hj1 : j ≠ 2 * i) (hj2 : j ≠ 2 * i + 1) (hj3 : j ≠ 2 * i + 2) :
    entry m i (2 * i) = 1 / 4 ∧ entry m i (2 * i + 1) = 1 / 2 ∧
      entry m i (2 * i + 2) = 1 / 4 ∧ entry m i j = 0 ∧
      2 * ((h + 1) / 2 - 1) + 2 = h := by
  obtain ⟨hlen, hrows, hent⟩ := coarsening_entry h he m hm
  refine ⟨?_, ?_, ?_, ?_, by omega⟩
  · rw [hent i (2 * i) hi (by omega), if_pos (Or.inl rfl)]
  · rw [hent i (2 * i + 1) hi (by omega), if_neg (by omega), if_pos rfl]
    norm_num
  · rw [hent i (2 * i + 2) hi (by omega), if_pos (Or.inr rfl)]
  · rw [hent i j hi hj, if_neg (by omega), if_neg (by omega)]

theorem coarsening_full_stencil_witness :
    entry [[(1 : ℚ) / 4, 2 / 4, 1 / 4, 0 / 4, 0 / 4],
           [0 / 4, 0 / 4, 1 / 4, 2 / 4, 1 / 4]] 0 (2 * 0) = 1 / 4 ∧
    entry [[(1 : ℚ) / 4, 2 / 4, 1 / 4, 0 / 4, 0 / 4],
           [0 / 4, 0 / 4, 1 / 4, 2 / 4, 1 / 4]] 0 (2 * 0 + 1) = 1 / 2 ∧
    entry [[(1 : ℚ) / 4, 2 / 4, 1 / 4, 0 / 4, 0 / 4],
           [0 / 4, 0 / 4, 1 / 4, 2 / 4, 1 / 4]] 0 (2 * 0 + 2) = 1 / 4 ∧
    entry [[(1 : ℚ) / 4, 2 / 4, 1 / 4, 0 / 4, 0 / 4],
           [0 / 4, 0 / 4, 1 / 4, 2 / 4, 1 / 4]] 0 3 = 0 ∧
    2 * ((4 + 1) / 2 - 1) + 2 = 4 :=
  coarsening_full_stencil 4
    [[(1 : ℚ) / 4, 2 / 4, 1 / 4, 0 / 4, 0 / 4], [0 / 4, 0 / 4, 1 / 4, 2 / 4, 1 / 4]]
    0 3 rfl (by norm_num) rfl (by norm_num) (by norm_num)
    (by norm_num) (by norm_num) (by norm_num)

/-! ## C9: the arange drops out-of-range third-diagonal targets -/

/-- C9: the column targets of the third stencil diagonal are exactly the
candidates 2i+2 that do not exceed size_fine - 1 = h: a candidate beyond the
last fine column is simply dropped by the arange (no wrapping, clamping or
error), and the matrix carries the 1-2-1 stencil pattern elsewhere. -/
theorem third_diagonal_skip_semantics (h : ℕ) (m : List (List ℚ)) (i j : ℕ)
    (he : h % 2 = 0) (h2 : 2 ≤ h) (hm : create_coarsening_matrix h = .ok m)
    (hi : i < (h + 1) / 2) (hj : j < h + 1) :
    arange 2 (h + 1) 2 =
      ((List.range ((h + 1) / 2)).map (fun k => 2 * k + 2)).filter
        (fun c => decide (c ≤ h)) ∧
    entry m i j =
      (if j = 2 * i ∨ j = 2 * i + 2 then (1 : ℚ) / 4
        else if j = 2 * i + 1 then 2 / 4 else 0) := by
  constructor
  · have hfil : ((List.range ((h + 1) / 2)).map (fun k => 2 * k + 2)).filter
        (fun c => decide (c ≤ h)) = (List.range ((h + 1) / 2)).map (fun k => 2 * k + 2) := by
      apply List.filter_eq_self.mpr
      intro c hc
      simp only [List.mem_map, List.mem_range] at hc
      obtain ⟨k, hk, rfl⟩ := hc
      simpa using (by omega : 2 * k + 2 ≤ h)
    rw [hfil, arange_step_two, show (h + 1 - 2 + 1) / 2 = (h + 1) / 2 from by omega]
    apply List.map_congr_left
    intro k _
    omega
  · exact (coarsening_entry h he m hm).2.2 i j hi hj

theorem third_diagonal_skip_semantics_witness :
    arange 2 (2 + 1) 2 =
      ((List.range ((2 + 1) / 2)).map (fun k => 2 * k + 2)).filter
        (fun c => decide (c ≤ 2)) ∧
    entry [[(1 : ℚ) / 4, 2 / 4, 1 / 4]] 0 1 =
      (if 1 = 2 * 0 ∨ 1 = 2 * 0 + 2 then (1 : ℚ) / 4
        else if 1 = 2 * 0 + 1 then 2 / 4 else 0) :=
  third_diagonal_skip_semantics 2 [[(1 : ℚ) / 4, 2 / 4, 1 / 4]] 0 1
    rfl (by norm_num) rfl (by norm_num) (by norm_num)

/-! ## C3: prolongation is twice the transpose of coarsening -/

/-- C3: for every even h ≥ 2, create_prolongation_matrix h is exactly 2
times the transpose of create_coarsening_matrix h, entry for entry: it has
shape (h+1) x ((h+1)/2) and entry (j, i) equal to 2 times entry (i, j) of
the coarsening matrix. -/
theorem prolongation_eq_two_transpose (h : ℕ) (cm pm : List (List ℚ)) (i j : ℕ)
    (he : h % 2 = 0) (h2 : 2 ≤ h)
    (hc : create_coarsening_matrix h = .ok cm)
    (hp : create_prolongation_matrix h = .ok pm)
    (hj : j < h + 1) (hi : i < (h + 1) / 2) :
    pm.length = h + 1 ∧ (pm.getD j []).length = (h + 1) / 2 ∧
      entry pm j i = 2 * entry cm i j := by
  obtain ⟨hlen, hrows, -⟩ := coarsening_entry h he cm hc
  unfold create_prolongation_matrix at hp
  rw [hc] at hp
  dsimp only at hp
  injection hp with hp
  subst hp
  have h0 : (cm.getD 0 []).length = h + 1 := hrows 0 (by omega)
  have hg : (transpose cm)[j]? = some (cm.map (fun row => row.getD j 0)) := by
    unfold transpose
    rw [List.getElem?_map, List.getElem?_range (by omega : j < (cm.getD 0 []).length),
      Option.map_some']
  have hci : cm[i]? = some cm[i] := List.getElem?_eq_getElem (by omega : i < cm.length)
  refine ⟨?_, ?_, ?_⟩
  · rw [List.length_map]
    unfold transpose
    rw [List.length_map, List.length_range, h0]
  · rw [List.getD_eq_getElem?_getD, List.getElem?_map, hg, Option.map_some',
      Option.getD_some, List.length_map, List.length_map, hlen]
  · rw [entry_eq_getElem?, List.getElem?_map, hg, Option.map_some', Option.getD_some,
      List.getElem?_map, List.getElem?_map, hci, Option.map_some', Option.map_some',
      Option.getD_some, entry_eq_getElem?, hci, Option.getD_some,
      List.getD_eq_getElem?_getD]

theorem prolongation_eq_two_transpose_witness :
    ([[2 * ((1 : ℚ) / 4)], [2 * (2 / 4 : ℚ)], [2 * ((1 : ℚ) / 4)]] :
        List (List ℚ)).length = 2 + 1 ∧
      (([[2 * ((1 : ℚ) / 4)], [2 * (2 / 4 : ℚ)],
          [2 * ((1 : ℚ) / 4)]] : List (List ℚ)).getD 0 []).length = (2 + 1) / 2 ∧
      entry [[2 * ((1 : ℚ) / 4)], [2 * (2 / 4 : ℚ)], [2 * ((1 : ℚ) / 4)]] 0 0 =
        2 * entry [[(1 : ℚ) / 4, 2 / 4, 1 / 4]] 0 0 :=
  prolongation_eq_two_transpose 2 [[(1 : ℚ) / 4, 2 / 4, 1 / 4]]
    [[2 * ((1 : ℚ) / 4)], [2 * (2 / 4 : ℚ)], [2 * ((1 : ℚ) / 4)]] 0 0
    rfl (by norm_num) rfl rfl (by norm_num) (by norm_num)
